import Mathlib

/-!
Verification development for the `shapepy` planar-shape library.

The development shallowly embeds the parts of the library that the checked
properties talk about: the simple-in-simple containment decision procedure,
the boundary winding-number formula, the Green-theorem integration engine for
polynomial boundaries, the boolean shape algebra with its Empty/Whole
sentinels and lazy inversion, the member-ordering invariants of composite
shapes, and the Cython `Polynomial` constructor.

Scalars are embedded as `ℚ` where the code computes exactly and as `ℝ`
where the property itself is about real analysis (winding angles, true
integrals).  The library's shapes are embedded either as boolean-expression
trees with a point-set semantics or, for the ordering invariants, by the one
datum the invariant mentions (the signed area of each member).
-/

open scoped BigOperators

namespace ShapePy

/-! ## Simple-in-simple containment decision procedure

Embeds the decision procedure of `docs/source/rst/theory.rst`
(section `theory_contains_simp`, the four `code-block:: python` fragments):

    if float(shapea) < 0 and float(shapeb) > 0: return False
    if float(shapea) > 0 and float(shapeb) < 0:
        return (jordana in shapeb) and (jordanb not in shapea)
    if float(shapea) > float(shapeb): return False
    if jordana not in shapeb: return False
    ...

`float(shape)` is the signed area; the curve-in-shape tests are passed in
as the booleans `jAinB` (`jordana in shapeb`) and `jBinA`
(`jordanb in shapea`). -/

/-- The containment decision procedure for two simple shapes, from the
source's pseudocode.  The final fallthrough (after the three rejection
tests) is modelled from the spec: the documented algorithm stops with
`continue ...`, and the spec's step 4 returns `jordan(A) ⊂ B` there. -/
def simpleInSimple (areaA areaB : ℚ) (jAinB jBinA : Bool) : Bool :=
  if areaA < 0 ∧ 0 < areaB then false
  else if 0 < areaA ∧ areaB < 0 then jAinB && !jBinA
  else if areaB < areaA then false
  else if !jAinB then false
  else true

/-- The decision procedure exactly as the claim words it, with the third
test comparing absolute values of the areas. -/
def simpleInSimpleClaim (areaA areaB : ℚ) (jAinB jBinA : Bool) : Bool :=
  if areaA < 0 ∧ 0 < areaB then false
  else if 0 < areaA ∧ areaB < 0 then jAinB && !jBinA
  else if |areaB| < |areaA| then false
  else jAinB

/-- The decision procedure as the amended claim words it: the third test
compares the signed areas themselves. -/
def simpleInSimpleSigned (areaA areaB : ℚ) (jAinB jBinA : Bool) : Bool :=
  if areaA < 0 ∧ 0 < areaB then false
  else if 0 < areaA ∧ areaB < 0 then jAinB && !jBinA
  else if areaB < areaA then false
  else jAinB

/-! ## Cython `Polynomial` constructor

Embeds `src/shapepy/analytic/polynomial.pyx`:

    cdef class Polynomial:
        cdef tuple _internal;
        def __cinit__(self, coefs = 0):
            if PyTuple_Check(coefs):
                self.__internal = coefs
            else:
                self._internal = (coefs,)  # Single element

A Python argument is either a scalar or a tuple of scalars.  The object
state records the declared attribute `_internal` and, separately, the
undeclared attribute `__internal` that the tuple branch actually assigns
(on the `cdef class` this attribute does not exist, so the branch never
initializes `_internal`). -/

/-- A Python value passed to `Polynomial.__cinit__`: a scalar or a tuple. -/
inductive PyArg where
  | scalar (c : ℚ)
  | tuple (cs : List ℚ)
deriving DecidableEq, Repr

/-- The attribute stores written by `Polynomial.__cinit__`:
`internal` is the declared `_internal` slot, `dunderInternal` the
misspelled `__internal` name the tuple branch targets. -/
structure PolyState where
  internal : Option (List ℚ)
  dunderInternal : Option (List ℚ)
deriving DecidableEq, Repr

/-- `Polynomial.__cinit__` as written: the tuple branch assigns to
`__internal` (a typo for `_internal`), the scalar branch wraps the
scalar into a one-element tuple and stores it in `_internal`. -/
def polynomialCinit (coefs : PyArg) : PolyState :=
  match coefs with
  | .tuple cs => { internal := none, dunderInternal := some cs }
  | .scalar c => { internal := some [c], dunderInternal := none }

/-! ## Boolean shape algebra

The boolean engine itself (curve splitting and reassembly) is not among the
source files; the shapes and operators are modelled from the spec.  A shape
is a boolean expression over primitive regions, and its meaning is the set
of plane points it encloses. -/

/-- A point of the plane. -/
abbrev Pt : Type := ℝ × ℝ

/-- Modelled from the spec: the shape algebra's operand graph.  `empty` and
`whole` are the sentinel shapes, `prim` a primitive (simple) region, and
`not`/`and`/`or` the three primitive boolean operators (`~`, `&`, `|`).
The spec's `LazyNot/LazyAnd/LazyOr` wrappers record exactly this graph. -/
inductive ShapeExpr where
  | empty : ShapeExpr
  | whole : ShapeExpr
  | prim (region : Set Pt) : ShapeExpr
  | not (a : ShapeExpr) : ShapeExpr
  | and (a b : ShapeExpr) : ShapeExpr
  | or (a b : ShapeExpr) : ShapeExpr

/-- The point set a shape expression denotes. -/
def sem : ShapeExpr → Set Pt
  | .empty => ∅
  | .whole => Set.univ
  | .prim region => region
  | .not a => (sem a)ᶜ
  | .and a b => sem a ∩ sem b
  | .or a b => sem a ∪ sem b

/-- Modelled from the spec: subtraction is always rewritten as
`A - B = A & (~B)` (`Rewrite operations` in the primitive docs). -/
def subShape (a b : ShapeExpr) : ShapeExpr :=
  .and a (.not b)

/-- Modelled from the spec: exclusive-or is always rewritten as
`A ^ B = (A - B) | (B - A)` (`Rewrite operations` in the primitive docs). -/
def xorShape (a b : ShapeExpr) : ShapeExpr :=
  .or (subShape a b) (subShape b a)

/-! ### Sentinel dispatch of the boolean engine

Modelled from the spec: resolving `AND`/`OR` first dispatches on the
Empty/Whole sentinels (`Empty∧X=Empty`, `Whole∧X=X`, `Empty∨X=X`,
`Whole∨X=Whole`); only two non-sentinel operands reach the curve engine,
represented here by an explicit intersection/union of the denoted sets. -/

/-- A canonical shape as the sentinel-dispatch step sees it: one of the
two sentinels, or a materialized region (Simple/Connected/Disjoint). -/
inductive CShape where
  | empty : CShape
  | whole : CShape
  | shape (region : Set Pt) : CShape

/-- The point set a canonical shape denotes. -/
def csem : CShape → Set Pt
  | .empty => ∅
  | .whole => Set.univ
  | .shape region => region

/-- Modelled from the spec: the `AND` resolution table of the boolean
engine.  Sentinels resolve by table lookup; two materialized shapes go to
the curve engine, whose output region is their intersection. -/
def candShape : CShape → CShape → CShape
  | .empty, _ => .empty
  | .whole, x => x
  | _, .empty => .empty
  | x, .whole => x
  | .shape r, .shape s => .shape (r ∩ s)

/-- Modelled from the spec: the `OR` resolution table of the boolean
engine.  Sentinels resolve by table lookup; two materialized shapes go to
the curve engine, whose output region is their union. -/
def corShape : CShape → CShape → CShape
  | .empty, x => x
  | .whole, _ => .whole
  | x, .empty => x
  | _, .whole => .whole
  | .shape r, .shape s => .shape (r ∪ s)

/-! ### Lazy inversion

Modelled from the spec: `~A` is the lazy inversion; applied to a lazy
`NOT` node it returns the wrapped operand itself, otherwise it wraps its
argument in a new `NOT` node (`boolean.rst`, note under `Inversion NOT`). -/

/-- The lazy inversion operator `~`. -/
def lazyInvert : ShapeExpr → ShapeExpr
  | .not a => a
  | a => .not a

/-- A shape expression whose head is not a doubly-nested `NOT`; every
expression the operators build has this form, since `~` never wraps a
`NOT` node in another `NOT`. -/
def headReduced : ShapeExpr → Prop
  | .not (.not _) => False
  | _ => True

/-! ## Integration engine

Modelled from the spec: polynomial-backed segments are integrated in
closed form — the integrand `x(t)^a y(t)^b (x(t) y'(t) - y(t) x'(t))` is
built by direct polynomial multiplication and integrated term by term —
and composite shapes reduce to sums over their members
(`theory_integral_shape` and `onedimen_integration` in the theory docs).
Power-basis polynomials are coefficient lists over `ℚ`, index = power. -/

/-- A power-basis polynomial: the coefficient list, index = power. -/
abbrev Poly : Type := List ℚ

/-- Horner evaluation over `ℚ`. -/
def evalQ : Poly → ℚ → ℚ
  | [], _ => 0
  | c :: p, t => c + t * evalQ p t

/-- Horner evaluation of the same coefficients over `ℝ`. -/
def evalR : Poly → ℝ → ℝ
  | [], _ => 0
  | c :: p, t => (c : ℝ) + t * evalR p t

/-- Coefficientwise polynomial addition. -/
def addPoly : Poly → Poly → Poly
  | [], q => q
  | p, [] => p
  | a :: p, b :: q => (a + b) :: addPoly p q

/-- Scalar multiple of a polynomial. -/
def scalePoly (a : ℚ) (p : Poly) : Poly :=
  p.map fun c => a * c

/-- Polynomial multiplication by convolution. -/
def mulPoly : Poly → Poly → Poly
  | [], _ => []
  | a :: p, q => addPoly (scalePoly a q) (0 :: mulPoly p q)

/-- Polynomial power. -/
def powPoly (p : Poly) : ℕ → Poly
  | 0 => [1]
  | n + 1 => mulPoly p (powPoly p n)

/-- Polynomial subtraction. -/
def subPoly (p q : Poly) : Poly :=
  addPoly p (scalePoly (-1) q)

/-- Multiplies coefficient `i` of the tail by `k + i`: helper for the
term-by-term derivative. -/
def derivAux : Poly → ℚ → Poly
  | [], _ => []
  | c :: p, k => k * c :: derivAux p (k + 1)

/-- Term-by-term polynomial derivative. -/
def derivPoly : Poly → Poly
  | [] => []
  | _ :: p => derivAux p 1

/-- `∫ t^k·(coefficient list) over [0,1]` by term-by-term antiderivative:
coefficient `i` contributes `cᵢ / (k + i + 1)`. -/
def integral01Aux : Poly → ℕ → ℚ
  | [], _ => 0
  | c :: p, k => c / (k + 1) + integral01Aux p (k + 1)

/-- The exact integral of a polynomial over `[0, 1]`, term by term. -/
def integral01 (p : Poly) : ℚ :=
  integral01Aux p 0

/-- A polynomial-backed curve segment `t ↦ (x(t), y(t))`, `t ∈ [0,1]`. -/
structure Segment where
  x : Poly
  y : Poly

/-- The Green-theorem integrand of one segment for the monomial
`x^a y^b`: the polynomial `x(t)^a · y(t)^b · (x(t)·y'(t) - y(t)·x'(t))`. -/
def segIntegrand (s : Segment) (a b : ℕ) : Poly :=
  mulPoly (mulPoly (powPoly s.x a) (powPoly s.y b))
    (subPoly (mulPoly s.x (derivPoly s.y)) (mulPoly s.y (derivPoly s.x)))

/-- A shape for the integration engine: a simple shape is its boundary's
segment list, composite shapes are member lists. -/
inductive Shape where
  | simple (segments : List Segment)
  | connected (members : List Shape)
  | disjoint (members : List Shape)

/-- Sum of the exact per-segment boundary integrals. -/
def sumSegs : List Segment → ℕ → ℕ → ℚ
  | [], _, _ => 0
  | s :: rest, a, b => integral01 (segIntegrand s a b) + sumSegs rest a b

mutual

/-- Modelled from the spec: `integrate_monomial(shape, a, b)`.  A simple
shape gets `1/(a+b+2)` times the summed per-segment boundary integrals;
Connected and Disjoint shapes reduce to the sum over their members. -/
def integrateMonomial : Shape → ℕ → ℕ → ℚ
  | .simple segs, a, b => 1 / ((a : ℚ) + (b : ℚ) + 2) * sumSegs segs a b
  | .connected ms, a, b => integrateMembers ms a b
  | .disjoint ms, a, b => integrateMembers ms a b

/-- Sum of `integrate_monomial` over the members of a composite shape. -/
def integrateMembers : List Shape → ℕ → ℕ → ℚ
  | [], _, _ => 0
  | m :: ms, a, b => integrateMonomial m a b + integrateMembers ms a b

end

/-- The area of a shape: the monomial integral with `a = b = 0`. -/
def areaShape (s : Shape) : ℚ :=
  integrateMonomial s 0 0

/-- The square of side 2 centered at the origin, traversed
counter-clockwise by four linear segments. -/
def squareSide2 : Shape :=
  .simple
    [⟨[1], [-1, 2]⟩, ⟨[1, -2], [1]⟩, ⟨[-1], [1, -2]⟩, ⟨[-1, 2], [-1]⟩]

/-- One summand of the polygon formula: `Σᵢ Σⱼ Xᵢ·Mᵢⱼ·Yⱼ` with
`Mᵢⱼ = C(i+j,i)·C(a+b-i-j,b-j)`, `Xᵢ = x₀^(a-i)·x₁^i`,
`Yⱼ = y₀^(b-j)·y₁^j`, for one polygon edge `(x₀,y₀) → (x₁,y₁)`. -/
def polygonTerm (a b : ℕ) (v0 v1 : ℚ × ℚ) : ℚ :=
  ∑ i ∈ Finset.range (a + 1), ∑ j ∈ Finset.range (b + 1),
    (v0.1 ^ (a - i) * v1.1 ^ i) *
      ((Nat.choose (i + j) i : ℚ) * (Nat.choose (a + b - i - j) (b - j) : ℚ)) *
      (v0.2 ^ (b - j) * v1.2 ^ j)

/-- The polygon monomial integral of `theory.rst` (`integrate(vertices,
a, b)`): `soma/denom` with `soma = Σₖ crossₖ·Σᵢⱼ Xₖᵢ Mᵢⱼ Yₖⱼ` over the
edges `vertices[k] → vertices[k+1 mod n]`, and
`denom = (a+b+2)(a+b+1)C(a+b,a)`. -/
def integratePolygon (vertices : List (ℚ × ℚ)) (a b : ℕ) : ℚ :=
  let shifted := vertices.rotateLeft 1
  let soma :=
    (List.zipWith
      (fun v0 v1 =>
        (v0.1 * v1.2 - v0.2 * v1.1) * polygonTerm a b v0 v1)
      vertices shifted).sum
  soma / (((a : ℚ) + b + 2) * ((a : ℚ) + b + 1) * (Nat.choose (a + b) a : ℚ))

/-- The vertex list of the square of side 2 centered at the origin. -/
def squareVertices : List (ℚ × ℚ) :=
  [(1, -1), (1, 1), (-1, 1), (-1, -1)]

/-! ## Winding number at a boundary point

Modelled from the spec: at a boundary point the winding function is the
fraction of an infinitesimal neighbourhood lying inside the shape,
computed from `v0 = -(incoming tangent)` and `v1 = outgoing tangent`
(`winding_function` in the theory docs). -/

/-- Dot product of two plane vectors. -/
noncomputable def dot2 (a b : Pt) : ℝ :=
  a.1 * b.1 + a.2 * b.2

/-- Cross product (z-component) of two plane vectors. -/
noncomputable def cross2 (a b : Pt) : ℝ :=
  a.1 * b.2 - a.2 * b.1

/-- `atan2 y x`: the argument angle of the plane point `(x, y)`, in
`(-π, π]`. -/
noncomputable def atan2 (y x : ℝ) : ℝ :=
  Complex.arg ⟨x, y⟩

/-- The boundary winding value exactly as the claim words it:
`(1/2π) · atan2(cross(v0,v1), dot(v0,v1))`. -/
noncomputable def windingBoundaryClaim (v0 v1 : Pt) : ℝ :=
  1 / (2 * Real.pi) * atan2 (cross2 v0 v1) (dot2 v0 v1)

/-- The argument angle reduced to `[0, 2π)`. -/
noncomputable def posArg (z : ℂ) : ℝ :=
  if Complex.arg z < 0 then Complex.arg z + 2 * Real.pi else Complex.arg z

/-- Modelled from the spec: the boundary winding value of the docs'
winding function — the interior angle at the boundary point as a
fraction of the full turn: the counter-clockwise angle from the outgoing
tangent `v1` to the negated incoming tangent `v0`, reduced to `[0, 2π)`
and divided by `2π`. -/
noncomputable def windingBoundary (v0 v1 : Pt) : ℝ :=
  1 / (2 * Real.pi) * posArg ⟨dot2 v0 v1, cross2 v1 v0⟩

/-! ## Member ordering of composite shapes

Modelled from the spec: a ConnectedShape keeps its (at most one)
positively-oriented member first and its holes ordered by increasing
enclosed area; a DisjointShape keeps its (at most one) unbounded
(negative) member first and the rest ordered by decreasing area.  A
member is represented by the one datum the invariant mentions, its
signed area. -/

/-- The order used for both composite tails: `x` before `y` iff
`y ≤ x`.  For holes (negative areas) this is increasing enclosed area
`-x`; for bounded members it is decreasing area. -/
def areaGe (x y : ℚ) : Prop :=
  y ≤ x

instance : DecidableRel areaGe := fun x y =>
  inferInstanceAs (Decidable (y ≤ x))

instance : IsTotal ℚ areaGe :=
  ⟨fun a b => le_total b a⟩

instance : IsTrans ℚ areaGe :=
  ⟨fun _ _ _ h1 h2 => le_trans h2 h1⟩

/-- Modelled from the spec: the ConnectedShape constructor's member
order — the positive member first, then the holes by increasing
enclosed area. -/
def mkConnected (members : List ℚ) : List ℚ :=
  (members.filter fun x => decide (0 < x)) ++
    List.insertionSort areaGe (members.filter fun x => decide (¬ 0 < x))

/-- Modelled from the spec: the DisjointShape constructor's member
order — the unbounded (negative) member first, then the rest by
decreasing area. -/
def mkDisjoint (members : List ℚ) : List ℚ :=
  (members.filter fun x => decide (x < 0)) ++
    List.insertionSort areaGe (members.filter fun x => decide (¬ x < 0))

/-- The ConnectedShape member invariant: at most one positive member,
ordered first; the remaining hole members ordered by increasing enclosed
area. -/
def connectedInvariant (l : List ℚ) : Prop :=
  ∃ pos holes, l = pos ++ holes ∧ pos.length ≤ 1 ∧
    (∀ x ∈ pos, 0 < x) ∧ (∀ x ∈ holes, ¬ 0 < x) ∧ holes.Sorted areaGe

/-- The DisjointShape member invariant: at most one unbounded (negative)
member, ordered first; the remaining members ordered by decreasing
area. -/
def disjointInvariant (l : List ℚ) : Prop :=
  ∃ neg rest, l = neg ++ rest ∧ neg.length ≤ 1 ∧
    (∀ x ∈ neg, x < 0) ∧ (∀ x ∈ rest, ¬ x < 0) ∧ rest.Sorted areaGe

end ShapePy

namespace ShapePy

/-! ### Helper lemmas: the exact polynomial arithmetic is sound over `ℝ` -/

/-- Addition of coefficient lists evaluates to the sum of evaluations. -/
theorem evalR_addPoly (p q : Poly) (t : ℝ) :
    evalR (addPoly p q) t = evalR p t + evalR q t := by
  induction p generalizing q with
  | nil => simp [addPoly, evalR]
  | cons a p ih =>
    cases q with
    | nil => simp [addPoly, evalR]
    | cons b q =>
      simp only [addPoly, evalR, ih]
      push_cast
      ring

/-- Scalar multiplication of coefficients scales the evaluation. -/
theorem evalR_scalePoly (a : ℚ) (p : Poly) (t : ℝ) :
    evalR (scalePoly a p) t = (a : ℝ) * evalR p t := by
  induction p with
  | nil => simp [scalePoly, evalR]
  | cons c p ih =>
    simp only [scalePoly, List.map_cons, evalR] at *
    push_cast
    rw [ih]
    ring

/-- Convolution of coefficient lists evaluates to the product. -/
theorem evalR_mulPoly (p q : Poly) (t : ℝ) :
    evalR (mulPoly p q) t = evalR p t * evalR q t := by
  induction p with
  | nil => simp [mulPoly, evalR]
  | cons a p ih =>
    simp only [mulPoly, evalR_addPoly, evalR_scalePoly, evalR, ih]
    push_cast
    ring

/-- Iterated convolution evaluates to the power. -/
theorem evalR_powPoly (p : Poly) (n : ℕ) (t : ℝ) :
    evalR (powPoly p n) t = evalR p t ^ n := by
  induction n with
  | zero => simp [powPoly, evalR]
  | succ n ih => simp [powPoly, evalR_mulPoly, ih, pow_succ]; ring

/-- Subtraction of coefficient lists evaluates to the difference. -/
theorem evalR_subPoly (p q : Poly) (t : ℝ) :
    evalR (subPoly p q) t = evalR p t - evalR q t := by
  simp [subPoly, evalR_addPoly, evalR_scalePoly]
  ring

/-- Shifting the index multiplier of `derivAux` by one adds one extra
copy of the evaluation. -/
theorem evalR_derivAux_succ (p : Poly) (k : ℚ) (t : ℝ) :
    evalR (derivAux p (k + 1)) t = evalR (derivAux p k) t + evalR p t := by
  induction p generalizing k with
  | nil => simp [derivAux, evalR]
  | cons c p ih =>
    simp only [derivAux, evalR, ih]
    push_cast
    ring

/-- Evaluation of `derivAux p 1` in terms of `p` and its derivative. -/
theorem evalR_derivAux_one (p : Poly) (t : ℝ) :
    evalR (derivAux p 1) t = evalR p t + t * evalR (derivPoly p) t := by
  cases p with
  | nil => simp [derivAux, derivPoly, evalR]
  | cons d r =>
    simp only [derivAux, derivPoly, evalR, evalR_derivAux_succ r 1 t]
    push_cast
    ring

/-- The term-by-term derivative is the true derivative of the real
evaluation. -/
theorem hasDerivAt_evalR (p : Poly) (t : ℝ) :
    HasDerivAt (fun u => evalR p u) (evalR (derivPoly p) t) t := by
  induction p with
  | nil => simpa [evalR, derivPoly] using hasDerivAt_const t (0 : ℝ)
  | cons c p ih =>
    have h := ((hasDerivAt_id t).mul ih).const_add (c : ℝ)
    have e : evalR (derivPoly (c :: p)) t
        = evalR p t + t * evalR (derivPoly p) t := evalR_derivAux_one p t
    rw [show (fun u => evalR (c :: p) u) = fun u : ℝ => (c : ℝ) + u * evalR p u
      from rfl, e]
    simpa using h

/-- Real evaluation of a coefficient list is continuous. -/
theorem continuous_evalR (p : Poly) : Continuous fun t : ℝ => evalR p t := by
  induction p with
  | nil => simpa [evalR] using continuous_const
  | cons c p ih =>
    simp only [evalR]
    exact continuous_const.add (continuous_id.mul ih)

/-- The term-by-term antiderivative computes the true integral of
`t^k · p(t)` over `[0, 1]` with no quadrature error. -/
theorem integral_pow_mul_evalR (p : Poly) (k : ℕ) :
    ∫ t in (0:ℝ)..1, t ^ k * evalR p t = (integral01Aux p k : ℝ) := by
  induction p generalizing k with
  | nil => simp [evalR, integral01Aux]
  | cons c p ih =>
    have hfun : ∀ t : ℝ, t ^ k * evalR (c :: p) t
        = (c : ℝ) * t ^ k + t ^ (k + 1) * evalR p t := by
      intro t
      simp only [evalR]
      ring
    have h1 : IntervalIntegrable (fun t : ℝ => (c : ℝ) * t ^ k)
        MeasureTheory.volume 0 1 :=
      (continuous_const.mul (continuous_pow k)).intervalIntegrable 0 1
    have h2 : IntervalIntegrable (fun t : ℝ => t ^ (k + 1) * evalR p t)
        MeasureTheory.volume 0 1 :=
      ((continuous_pow (k + 1)).mul (continuous_evalR p)).intervalIntegrable 0 1
    rw [intervalIntegral.integral_congr (g :=
        fun t : ℝ => (c : ℝ) * t ^ k + t ^ (k + 1) * evalR p t)
        (fun t _ => hfun t),
      intervalIntegral.integral_add h1 h2,
      intervalIntegral.integral_const_mul, integral_pow, ih]
    simp [integral01Aux]
    ring

/-- Per-segment exactness: the closed-form rational value of the
Green-theorem integrand equals the true real boundary integral. -/
theorem segment_integral_exact (s : Segment) (a b : ℕ) :
    (∫ t in (0:ℝ)..1,
        evalR s.x t ^ a * evalR s.y t ^ b *
          (evalR s.x t * deriv (fun u => evalR s.y u) t
            - evalR s.y t * deriv (fun u => evalR s.x u) t))
      = (integral01 (segIntegrand s a b) : ℝ) := by
  have hfun : ∀ t : ℝ,
      evalR s.x t ^ a * evalR s.y t ^ b *
          (evalR s.x t * deriv (fun u => evalR s.y u) t
            - evalR s.y t * deriv (fun u => evalR s.x u) t)
        = t ^ 0 * evalR (segIntegrand s a b) t := by
    intro t
    rw [(hasDerivAt_evalR s.y t).deriv, (hasDerivAt_evalR s.x t).deriv]
    simp only [segIntegrand, evalR_mulPoly, evalR_powPoly, evalR_subPoly,
      pow_zero, one_mul]
  rw [intervalIntegral.integral_congr (fun t _ => hfun t),
    integral_pow_mul_evalR]
  rfl

/-- The member sum of the integration engine is the list sum of the
members' integrals. -/
theorem integrateMembers_eq_sum (ms : List Shape) (a b : ℕ) :
    integrateMembers ms a b = (ms.map fun m => integrateMonomial m a b).sum := by
  induction ms with
  | nil => simp [integrateMembers]
  | cons m ms ih => simp [integrateMembers, ih]

/-- C1: the claim's decision procedure (absolute-value area test) does not
match the source's: at `area(A) = -2`, `area(B) = -1`,
`jordan(A) ⊂ B = true`, `jordan(B) ⊂ A = false` (the exterior of a big
disk against the exterior of a small disk) the source procedure returns
`true` and the claimed procedure returns `false`. -/
theorem simpleInSimple_abs_vs_signed :
    simpleInSimple (-2) (-1) true false = true ∧
      simpleInSimpleClaim (-2) (-1) true false = false ∧
      simpleInSimple (-2) (-1) true false ≠
        simpleInSimpleClaim (-2) (-1) true false := by
  refine ⟨by decide, by decide, ?_⟩
  decide

/-- C1 (amended): the containment test follows the claimed decision
procedure with the third test comparing signed areas
(`area(A) > area(B)` rejects) instead of absolute values. -/
theorem simpleInSimple_eq_signed_procedure (areaA areaB : ℚ)
    (jAinB jBinA : Bool) :
    simpleInSimple areaA areaB jAinB jBinA =
      simpleInSimpleSigned areaA areaB jAinB jBinA := by
  cases jAinB <;> simp [simpleInSimple, simpleInSimpleSigned]

/-- C3: `integrate_monomial` on a polynomial-backed simple shape equals
`1/(a+b+2)` times the true real boundary integral of
`x^a y^b (x dy - y dx)` summed over the curve's segments — the closed
form has no quadrature error — while Disjoint and Connected shapes reduce
to the sum over their members, and area is the special case `a = b = 0`. -/
theorem integrateMonomial_spec (segs : List Segment) (ms : List Shape)
    (s : Shape) (a b : ℕ) :
    ((integrateMonomial (.simple segs) a b : ℚ) : ℝ)
        = 1 / ((a : ℝ) + (b : ℝ) + 2) *
          (segs.map fun sg => ∫ t in (0:ℝ)..1,
              evalR sg.x t ^ a * evalR sg.y t ^ b *
                (evalR sg.x t * deriv (fun u => evalR sg.y u) t
                  - evalR sg.y t * deriv (fun u => evalR sg.x u) t)).sum ∧
      integrateMonomial (.disjoint ms) a b
        = (ms.map fun m => integrateMonomial m a b).sum ∧
      integrateMonomial (.connected ms) a b
        = (ms.map fun m => integrateMonomial m a b).sum ∧
      areaShape s = integrateMonomial s 0 0 := by
  refine ⟨?_, ?_, ?_, rfl⟩
  · have hsum : ((sumSegs segs a b : ℚ) : ℝ)
        = (segs.map fun sg => ∫ t in (0:ℝ)..1,
            evalR sg.x t ^ a * evalR sg.y t ^ b *
              (evalR sg.x t * deriv (fun u => evalR sg.y u) t
                - evalR sg.y t * deriv (fun u => evalR sg.x u) t)).sum := by
      induction segs with
      | nil => simp [sumSegs]
      | cons sg rest ih =>
        simp only [sumSegs, List.map_cons, List.sum_cons]
        push_cast
        rw [ih, segment_integral_exact]
    show ((1 / ((a : ℚ) + (b : ℚ) + 2) * sumSegs segs a b : ℚ) : ℝ) = _
    rw [Rat.cast_mul, hsum]
    push_cast
    ring
  · exact integrateMembers_eq_sum ms a b
  · exact integrateMembers_eq_sum ms a b

/-- C4 counterexample: on the square of side 2 centered at the origin the
integration engine — both the Green-theorem engine and the source's
polygon formula — returns `4/3` for the monomial `(a=2, b=0)`, not the
claimed `16/3` (the repository's own example values for the same square
centered at `(3,4)` are reproduced exactly by the same formula). -/
theorem square_moment20_ne_sixteen_thirds :
    integrateMonomial squareSide2 2 0 = 4 / 3 ∧
      integratePolygon squareVertices 2 0 = 4 / 3 ∧
      (4 / 3 : ℚ) ≠ 16 / 3 := by
  refine ⟨?_, ?_, by norm_num⟩
  · norm_num [integrateMonomial, sumSegs, integral01, integral01Aux,
      segIntegrand, mulPoly, addPoly, scalePoly, powPoly, subPoly,
      derivPoly, derivAux, squareSide2]
  · norm_num [integratePolygon, polygonTerm, squareVertices,
      Finset.sum_range_succ, List.rotateLeft]

/-- C4 (amended): for the square of side 2 centered at the origin the
integration engine returns area exactly `4`, monomial moment `(a=1,b=0)`
exactly `0`, and monomial moment `(a=2,b=0)` equal to `4/3`; the source's
polygon formula returns the same three values. -/
theorem square_moments :
    integrateMonomial squareSide2 0 0 = 4 ∧
      integrateMonomial squareSide2 1 0 = 0 ∧
      integrateMonomial squareSide2 2 0 = 4 / 3 ∧
      integratePolygon squareVertices 0 0 = 4 ∧
      integratePolygon squareVertices 1 0 = 0 ∧
      integratePolygon squareVertices 2 0 = 4 / 3 := by
  refine ⟨?_, ?_, ?_, ?_, ?_, ?_⟩
  all_goals
    norm_num [integrateMonomial, sumSegs, integral01, integral01Aux,
      segIntegrand, mulPoly, addPoly, scalePoly, powPoly, subPoly,
      derivPoly, derivAux, squareSide2, integratePolygon, polygonTerm,
      squareVertices, Finset.sum_range_succ, List.rotateLeft]

/-- C2 counterexample: with the standard `atan2` (values in `(-π, π]`)
and the standard cross product, the claimed formula
`(1/2π)·atan2(cross(v0,v1), dot(v0,v1))` yields `-1/4`, not the claimed
`0.25`, at a corner of the counter-clockwise unit square (incoming
tangent `(0,1)`, outgoing tangent `(-1,0)`, hence `v0 = (0,-1)`,
`v1 = (-1,0)`). -/
theorem windingBoundaryClaim_square_corner :
    windingBoundaryClaim (0, -1) (-1, 0) = -(1 / 4) ∧
      windingBoundaryClaim (0, -1) (-1, 0) ≠ 1 / 4 := by
  have hz : (⟨dot2 (0, -1) (-1, 0), cross2 (0, -1) (-1, 0)⟩ : ℂ)
      = -Complex.I := by
    apply Complex.ext <;> norm_num [dot2, cross2]
  have harg : atan2 (cross2 (0, -1) (-1, 0)) (dot2 (0, -1) (-1, 0))
      = -(Real.pi / 2) := by
    rw [atan2, hz, Complex.arg_neg_I]
  have hval : windingBoundaryClaim (0, -1) (-1, 0) = -(1 / 4) := by
    rw [windingBoundaryClaim, harg]
    field_simp
    ring
  exact ⟨hval, by rw [hval]; norm_num⟩

/-- C2 (amended): with the boundary angle taken as the counter-clockwise
angle from the outgoing tangent `v1` to `v0 = -(incoming tangent)`,
reduced to `[0, 2π)` — i.e. `atan2(cross(v1,v0), dot(v0,v1))` on the
`[0, 2π)` branch — the winding value is exactly `1/2` at every smooth
boundary point, exactly `1/4` at a corner of a square, and strictly
between `0` and `1` at every boundary point that is not a cusp (where
`v1` would point along the nonnegative ray of `v0`). -/
theorem windingBoundary_values :
    (∀ v : Pt, v ≠ 0 → windingBoundary (-v) v = 1 / 2) ∧
      windingBoundary (0, -1) (-1, 0) = 1 / 4 ∧
      (∀ v0 v1 : Pt, ¬(cross2 v1 v0 = 0 ∧ 0 ≤ dot2 v0 v1) →
        0 < windingBoundary v0 v1 ∧ windingBoundary v0 v1 < 1) := by
  refine ⟨?_, ?_, ?_⟩
  · intro v hv
    have hd : dot2 (-v) v = -(v.1 ^ 2 + v.2 ^ 2) := by simp [dot2]; ring
    have hc : cross2 v (-v) = 0 := by simp [cross2]; ring
    have h1 : v.1 ≠ 0 ∨ v.2 ≠ 0 := by
      by_contra hcon
      push_neg at hcon
      exact hv (Prod.ext hcon.1 hcon.2)
    have hlt : (0 : ℝ) < v.1 ^ 2 + v.2 ^ 2 := by
      rcases h1 with h | h
      · have := pow_two_pos_of_ne_zero h
        nlinarith [sq_nonneg v.2]
      · have := pow_two_pos_of_ne_zero h
        nlinarith [sq_nonneg v.1]
    have hzeq : (⟨dot2 (-v) v, cross2 v (-v)⟩ : ℂ)
        = ((-(v.1 ^ 2 + v.2 ^ 2) : ℝ) : ℂ) := by
      apply Complex.ext
      · show dot2 (-v) v = ((-(v.1 ^ 2 + v.2 ^ 2) : ℝ) : ℂ).re
        rw [Complex.ofReal_re]
        exact hd
      · show cross2 v (-v) = ((-(v.1 ^ 2 + v.2 ^ 2) : ℝ) : ℂ).im
        rw [Complex.ofReal_im]
        exact hc
    have harg : Complex.arg ⟨dot2 (-v) v, cross2 v (-v)⟩ = Real.pi := by
      rw [hzeq]
      exact Complex.arg_ofReal_of_neg (by linarith)
    simp only [windingBoundary, posArg, harg]
    rw [if_neg (not_lt.mpr Real.pi_nonneg)]
    field_simp
    ring
  · have hzeq : (⟨dot2 (0, -1) (-1, 0), cross2 (-1, 0) (0, -1)⟩ : ℂ)
        = Complex.I := by
      apply Complex.ext <;> norm_num [dot2, cross2]
    simp only [windingBoundary, posArg, hzeq, Complex.arg_I]
    rw [if_neg (not_lt.mpr (by positivity))]
    field_simp
    ring
  · intro v0 v1 h
    have hargne : Complex.arg ⟨dot2 v0 v1, cross2 v1 v0⟩ ≠ 0 := by
      intro h0
      rw [Complex.arg_eq_zero_iff] at h0
      exact h ⟨h0.2, h0.1⟩
    have h2pi : (0 : ℝ) < 2 * Real.pi := by positivity
    have hlo : 0 < posArg ⟨dot2 v0 v1, cross2 v1 v0⟩ := by
      rw [posArg]
      split_ifs with hneg
      · have := Complex.neg_pi_lt_arg (⟨dot2 v0 v1, cross2 v1 v0⟩ : ℂ)
        linarith [Real.pi_pos]
      · exact lt_of_le_of_ne (not_lt.mp hneg) (Ne.symm hargne)
    have hhi : posArg ⟨dot2 v0 v1, cross2 v1 v0⟩ < 2 * Real.pi := by
      rw [posArg]
      split_ifs with hneg
      · linarith [Real.pi_pos]
      · have := Complex.arg_le_pi (⟨dot2 v0 v1, cross2 v1 v0⟩ : ℂ)
        linarith [Real.pi_pos]
    constructor
    · exact mul_pos (by positivity) hlo
    · have h1 := (div_lt_one h2pi).mpr hhi
      simp only [windingBoundary]
      rw [one_div, inv_mul_eq_div]
      exact h1

/-- C2 witness: the amended winding values at concrete tangents — the
smooth case at `v = (1,0)` and the open-interval bounds at the square
corner tangents. -/
theorem windingBoundary_values_witness :
    windingBoundary (-(1, 0)) (1, 0) = 1 / 2 ∧
      (0 < windingBoundary (0, -1) (-1, 0) ∧
        windingBoundary (0, -1) (-1, 0) < 1) :=
  ⟨windingBoundary_values.1 (1, 0) (by norm_num [Prod.ext_iff]),
    windingBoundary_values.2.2 (0, -1) (-1, 0) (by norm_num [cross2, dot2])⟩

/-- C5: for every shape `A`, `A | NOT(A)` denotes the Whole shape,
`A & NOT(A)` denotes the Empty shape, and `NOT(NOT(A))` denotes the same
point set as `A`. -/
theorem shape_complement_laws (A : ShapeExpr) :
    sem (.or A (.not A)) = sem .whole ∧
      sem (.and A (.not A)) = sem .empty ∧
      sem (.not (.not A)) = sem A := by
  refine ⟨?_, ?_, ?_⟩ <;> simp [sem]

/-- C5 witness: the complement laws at the concrete shape `empty`. -/
theorem shape_complement_laws_empty :
    sem (.or .empty (.not .empty)) = sem .whole ∧
      sem (.and .empty (.not .empty)) = sem .empty ∧
      sem (.not (.not .empty)) = sem .empty :=
  shape_complement_laws .empty

/-- C6: Empty and Whole resolve by the identity/absorbing table
(`Empty∧X=Empty`, `Whole∧X=X`, `Empty∨X=X`, `Whole∨X=Whole`), and the
whole dispatch is sound for the point-set semantics. -/
theorem sentinel_dispatch_table (X : CShape) :
    candShape .empty X = .empty ∧
      candShape .whole X = X ∧
      corShape .empty X = X ∧
      corShape .whole X = .whole ∧
      (∀ A B : CShape, csem (candShape A B) = csem A ∩ csem B) ∧
      (∀ A B : CShape, csem (corShape A B) = csem A ∪ csem B) := by
  refine ⟨?_, ?_, ?_, ?_, ?_, ?_⟩
  · cases X <;> rfl
  · cases X <;> rfl
  · cases X <;> rfl
  · cases X <;> rfl
  · intro A B
    cases A <;> cases B <;> simp [candShape, csem]
  · intro A B
    cases A <;> cases B <;> simp [corShape, csem]

/-- C7: subtraction and xor are exactly the stated compositions of the
three primitives — `SUB(A,B) = AND(A, NOT(B))`,
`XOR(A,B) = OR(SUB(A,B), SUB(B,A))` — and those compositions denote set
difference and symmetric difference. -/
theorem sub_xor_rewrites :
    (∀ A B : ShapeExpr, subShape A B = .and A (.not B)) ∧
      (∀ A B : ShapeExpr,
        xorShape A B = .or (.and A (.not B)) (.and B (.not A))) ∧
      (∀ A B : ShapeExpr, sem (subShape A B) = sem A \ sem B) ∧
      (∀ A B : ShapeExpr,
        sem (xorShape A B) = sem A \ sem B ∪ sem B \ sem A) := by
  refine ⟨fun A B => rfl, fun A B => rfl, fun A B => ?_, fun A B => ?_⟩ <;>
    simp [subShape, xorShape, sem, Set.diff_eq]

/-- C8: for every valid member list (at most one positively-oriented
member for a ConnectedShape, at most one unbounded member for a
DisjointShape), the constructed composite satisfies its ordering
invariant: the exceptional member first, then the holes by increasing
enclosed area (Connected) or the bounded members by decreasing area
(Disjoint). -/
theorem mk_composite_invariants :
    (∀ ms : List ℚ, ((ms.filter fun x => decide (0 < x)).length ≤ 1) →
        connectedInvariant (mkConnected ms)) ∧
      (∀ ms : List ℚ, ((ms.filter fun x => decide (x < 0)).length ≤ 1) →
        disjointInvariant (mkDisjoint ms)) := by
  constructor
  · intro ms h
    refine ⟨ms.filter fun x => decide (0 < x),
      List.insertionSort areaGe (ms.filter fun x => decide (¬ 0 < x)),
      rfl, h, ?_, ?_, List.sorted_insertionSort areaGe _⟩
    · intro x hx
      simpa using (List.mem_filter.mp hx).2
    · intro x hx
      have hx2 := (List.perm_insertionSort areaGe _).mem_iff.mp hx
      simpa using (List.mem_filter.mp hx2).2
  · intro ms h
    refine ⟨ms.filter fun x => decide (x < 0),
      List.insertionSort areaGe (ms.filter fun x => decide (¬ x < 0)),
      rfl, h, ?_, ?_, List.sorted_insertionSort areaGe _⟩
    · intro x hx
      simpa using (List.mem_filter.mp hx).2
    · intro x hx
      have hx2 := (List.perm_insertionSort areaGe _).mem_iff.mp hx
      simpa using (List.mem_filter.mp hx2).2

/-- C8 witness: the invariants at concrete member lists — one bounded
member with two holes, and one unbounded member with two bounded ones. -/
theorem mk_composite_invariants_witness :
    connectedInvariant (mkConnected [2, -1, -3]) ∧
      disjointInvariant (mkDisjoint [-5, 1, 3]) :=
  ⟨mk_composite_invariants.1 [2, -1, -3] (by decide),
    mk_composite_invariants.2 [-5, 1, 3] (by decide)⟩

/-- C9: applying the lazy inversion `~` twice returns the operand itself,
for every shape expression whose head is not a doubly-nested `NOT` (the
only expressions the operators ever build, since `~` unwraps a `NOT`
node instead of wrapping it again). -/
theorem lazyInvert_lazyInvert (A : ShapeExpr) (h : headReduced A) :
    lazyInvert (lazyInvert A) = A := by
  cases A with
  | not a =>
    cases a with
    | not b => exact absurd h (by simp [headReduced])
    | empty => rfl
    | whole => rfl
    | prim r => rfl
    | and x y => rfl
    | or x y => rfl
  | empty => rfl
  | whole => rfl
  | prim r => rfl
  | and x y => rfl
  | or x y => rfl

/-- C9 witness: the double lazy inversion at the concrete shape `empty`. -/
theorem lazyInvert_lazyInvert_empty :
    lazyInvert (lazyInvert .empty) = ShapeExpr.empty :=
  lazyInvert_lazyInvert .empty trivial

/-- C10: evaluating `Polynomial.__cinit__` on a tuple argument shows the
divergence: the tuple lands in the misspelled `__internal` attribute and
the declared `_internal` slot is never written, while a scalar argument
(including the default `0`) is stored in `_internal` as a one-element
tuple, as the claim states. -/
theorem polynomialCinit_tuple_bug :
    polynomialCinit (.tuple [1, 2]) =
        { internal := none, dunderInternal := some [1, 2] } ∧
      (polynomialCinit (.tuple [1, 2])).internal ≠ some [1, 2] ∧
      polynomialCinit (.scalar 0) =
        { internal := some [0], dunderInternal := none } := by
  refine ⟨rfl, ?_, rfl⟩
  decide

end ShapePy
